/-
Verification of the CTD document-archive TOC/metadata core.

The development shallowly embeds:
  * the metadata overlay schema and the TOC generator's tree walk
    (the generator script itself is not in the source tree; it is
    modelled from the metadata format document and the specification),
  * the client resolver `findEntryByPath`, `getParentPaths`,
    `parseHash` / `updateHash` from `web/src/routes/+page.svelte`
    (JS strings are modelled as `List Char`),
  * the PDF viewer page-navigation state machine from `PdfViewer`.
-/
import Mathlib

set_option maxHeartbeats 1000000

namespace Ctd

/-! ## Data model: overlays and the directory snapshot -/

/-- A folder overlay record (the `_folder` key of `metadata.json`):
optional `title`, `summary`, `drug`, `drugName`. -/
structure FolderOverlay where
  title : Option String
  summary : Option String
  drug : Option String
  drugName : Option String
deriving Repr, DecidableEq

/-- A file overlay record (a filename key of `metadata.json`):
optional `title`, `summary`, `tags`. -/
structure FileOverlay where
  title : Option String
  summary : Option String
  tags : Option (List String)
deriving Repr, DecidableEq

/-- A parsed `metadata.json`: the optional `_folder` overlay plus a
filename-keyed map of file overlays. -/
structure Metadata where
  folder : Option FolderOverlay
  files : List (String × FileOverlay)
deriving Repr, DecidableEq

/-- The empty metadata record: what the loader produces when the
directory has no (or an unparsable) `metadata.json`. -/
def Metadata.empty : Metadata := ⟨none, []⟩

/-- A snapshot of the physical directory tree: plain files and
directories, each directory carrying its optional `metadata.json`. -/
inductive FsTree where
  | file (name : String)
  | dir (name : String) (meta : Option Metadata) (children : List FsTree)
deriving Repr

/-- The emitted TOC node (`TocEntry` in `types.ts`): `name`, `type`,
`path`, optional `children`, optional `$ref` (lazy fragment pointer),
optional external `url`, and the merged metadata fields. -/
inductive TocEntry where
  | mk (name : String) (type : String) (path : String)
      (children : Option (List TocEntry))
      (ref : Option String) (url : Option String)
      (title : Option String) (summary : Option String)
      (tags : Option (List String)) (drug : Option String)
deriving Repr

def TocEntry.name : TocEntry → String
  | .mk n _ _ _ _ _ _ _ _ _ => n

def TocEntry.type : TocEntry → String
  | .mk _ t _ _ _ _ _ _ _ _ => t

def TocEntry.path : TocEntry → String
  | .mk _ _ p _ _ _ _ _ _ _ => p

def TocEntry.children : TocEntry → Option (List TocEntry)
  | .mk _ _ _ c _ _ _ _ _ _ => c

def TocEntry.ref : TocEntry → Option String
  | .mk _ _ _ _ r _ _ _ _ _ => r

def TocEntry.title : TocEntry → Option String
  | .mk _ _ _ _ _ _ t _ _ _ => t

def TocEntry.summary : TocEntry → Option String
  | .mk _ _ _ _ _ _ _ s _ _ => s

def TocEntry.tags : TocEntry → Option (List String)
  | .mk _ _ _ _ _ _ _ _ tg _ => tg

def TocEntry.drug : TocEntry → Option String
  | .mk _ _ _ _ _ _ _ _ _ d => d

/-! ## The generator's tree walk (modelled from the spec) -/

/-- File-kind tag derived from the filename extension (the segment
after the last dot, as in the emitted `type` field). -/
def extType (name : String) : String :=
  match (name.data.splitOn '.').getLast? with
  | some e => ⟨e⟩
  | none => name

/-- Slash-joined path of a child under a parent path; the archive root
has the empty parent path. -/
def joinPath (parent name : String) : String :=
  if parent = "" then name else parent ++ "/" ++ name

/-- First file overlay stored under the given filename key. -/
def lookupFile (files : List (String × FileOverlay)) (name : String) :
    Option FileOverlay :=
  files.lookup name

/-- Modelled from the spec: the Tree Walker of the TOC generator
(`generate_toc.py`, not present in the source tree).  Given the
inherited `drug` value, the parent's path and the parent directory's
metadata, it produces the emitted `TocEntry` for one directory entry:
file nodes take `title`/`summary`/`tags` from the matching file overlay
in the parent's metadata (title falling back to the filename) and carry
the inherited `drug`; folder nodes merge their own `_folder` overlay
(title falling back to the directory name) and pass
`own drug if present, else inherited` down to their children. -/
def walkEntry (inh : Option String) (parentPath : String)
    (pmeta : Metadata) : FsTree → TocEntry
  | .file name =>
    let ov := lookupFile pmeta.files name
    .mk name (extType name) (joinPath parentPath name)
      none none none
      (some ((ov.bind (·.title)).getD name))
      (ov.bind (·.summary)) (ov.bind (·.tags)) inh
  | .dir name meta children =>
    let fo := (meta.bind (·.folder)).getD ⟨none, none, none, none⟩
    let drug := fo.drug.or inh
    let path := joinPath parentPath name
    let meta' := meta.getD Metadata.empty
    .mk name "folder" path
      (some (children.attach.map (fun c => walkEntry drug path meta' c.1)))
      none none
      (some (fo.title.getD name))
      fo.summary none drug
termination_by t => sizeOf t
decreasing_by
  have := List.sizeOf_lt_of_mem c.2
  simp only [FsTree.dir.sizeOf_spec]
  omega

/-- Modelled from the spec: the TOC Assembler with lazy loading
disabled — the walk of the archive root with no inherited drug. -/
def assemble (root : FsTree) : TocEntry :=
  walkEntry none "" Metadata.empty root

/-- `walkEntry` on a plain file, unfolded. -/
theorem walkEntry_file (inh : Option String) (pp : String) (pm : Metadata)
    (name : String) :
    walkEntry inh pp pm (.file name) =
      (TocEntry.mk name (extType name) (joinPath pp name)
        none none none
        (some (((lookupFile pm.files name).bind (·.title)).getD name))
        ((lookupFile pm.files name).bind (·.summary))
        ((lookupFile pm.files name).bind (·.tags)) inh) := by
  rw [walkEntry]

/-- `walkEntry` on a directory, with the child traversal written as a
plain `List.map`. -/
theorem walkEntry_dir (inh : Option String) (pp : String) (pm : Metadata)
    (n : String) (m : Option Metadata) (cs : List FsTree) :
    walkEntry inh pp pm (.dir n m cs) =
      (let fo := (m.bind (·.folder)).getD ⟨none, none, none, none⟩
      let drug := fo.drug.or inh
      let path := joinPath pp n
      TocEntry.mk n "folder" path
        (some (cs.map (fun c => walkEntry drug path (m.getD Metadata.empty) c)))
        none none
        (some (fo.title.getD n))
        fo.summary none drug) := by
  rw [walkEntry]
  simp [List.attach_map_val]

/-! ## Addressing nodes by position -/

/-- The subtree of an emitted TOC node at a child-index position. -/
def getSub : TocEntry → List Nat → Option TocEntry
  | t, [] => some t
  | t, i :: rest =>
    match t.children with
    | some cs =>
      match cs[i]? with
      | some c => getSub c rest
      | none => none
    | none => none

/-- The `drug` field of a directory's own `_folder` overlay (a plain
file has no folder overlay, hence no own `drug`). -/
def ownDrug : FsTree → Option String
  | .file _ => none
  | .dir _ meta _ => (meta.bind (·.folder)).bind (·.drug)

/-- The own-overlay `drug` values along the chain of input nodes from
the root down to (and including) the node at the given position;
junk-extends to a truncated list when the position is invalid. -/
def drugChain : FsTree → List Nat → List (Option String)
  | t, [] => [ownDrug t]
  | .file _, _ :: _ => []
  | .dir nm m cs, i :: rest =>
    ownDrug (.dir nm m cs) ::
      (match cs[i]? with
        | some c => drugChain c rest
        | none => [])

/-- Inheritance lemma for the walk: the emitted `drug` at any position
is the first defined own-overlay `drug` looking from the node upward,
falling back to the inherited value passed into the walk. -/
theorem walkEntry_drug (pos : List Nat) :
    ∀ (t : FsTree) (inh : Option String) (pp : String) (pm : Metadata)
      (n : TocEntry), getSub (walkEntry inh pp pm t) pos = some n →
      n.drug = ((drugChain t pos).reverse.findSome? id).or inh := by
  induction pos with
  | nil =>
    intro t inh pp pm n h
    simp only [getSub, Option.some.injEq] at h
    subst h
    cases t with
    | file name => simp [walkEntry, drugChain, ownDrug, TocEntry.drug]
    | dir nm m cs =>
      rw [walkEntry_dir]
      simp only [drugChain, ownDrug, TocEntry.drug, List.reverse_cons,
        List.reverse_nil, List.nil_append, List.findSome?_cons, List.findSome?_nil, id]
      cases hm : (m.bind (·.folder)) with
      | none => simp [hm]
      | some fo => cases hd : fo.drug <;> simp [hm, hd]
  | cons i rest ih =>
    intro t inh pp pm n h
    cases t with
    | file name =>
      rw [walkEntry_file] at h
      simp [getSub, TocEntry.children] at h
    | dir nm m cs =>
      rw [walkEntry_dir] at h
      simp only [getSub, TocEntry.children, List.getElem?_map] at h
      cases hc : cs[i]? with
      | none => simp [hc] at h
      | some c =>
        rw [hc] at h
        simp only [Option.map_some'] at h
        have := ih c _ _ _ _ h
        rw [this]
        simp only [drugChain, hc, List.reverse_cons, List.findSome?_append]
        rw [Option.or_assoc]
        congr 1
        simp only [List.findSome?_cons, List.findSome?_nil, ownDrug, id]
        cases hm : (m.bind (·.folder)) with
        | none => simp [hm]
        | some fo => cases hd : fo.drug <;> simp [hm, hd]

/-- Base name of an input directory entry. -/
def FsTree.name : FsTree → String
  | .file n => n
  | .dir n _ _ => n

/-- The input subtree at a child-index position. -/
def FsTree.sub : FsTree → List Nat → Option FsTree
  | t, [] => some t
  | .file _, _ :: _ => none
  | .dir _ _ cs, i :: rest => (cs[i]?).bind (fun c => FsTree.sub c rest)

/-- The overlay `title` applicable to the input node at a position:
for a file, the `title` of the matching file overlay in its parent
directory's metadata; for a folder, the `title` of its own `_folder`
overlay.  The outer `Option` is position validity, the inner one
records whether any overlay title is defined. -/
def overlayTitleAt (pm : Metadata) : FsTree → List Nat → Option (Option String)
  | .file n, [] => some ((lookupFile pm.files n).bind (·.title))
  | .dir _ m _, [] => some ((m.bind (·.folder)).bind (·.title))
  | .file _, _ :: _ => none
  | .dir _ m cs, i :: rest =>
    (cs[i]?).bind (fun c => overlayTitleAt (m.getD Metadata.empty) c rest)

/-- Title lemma for the walk: every emitted node's `title` is present
and equals the applicable overlay title when one is defined, else the
node's own name. -/
theorem walkEntry_title (pos : List Nat) :
    ∀ (t : FsTree) (inh : Option String) (pp : String) (pm : Metadata)
      (n : TocEntry), getSub (walkEntry inh pp pm t) pos = some n →
      ∃ fs ot, FsTree.sub t pos = some fs ∧ overlayTitleAt pm t pos = some ot ∧
        n.title = some (ot.getD fs.name) := by
  induction pos with
  | nil =>
    intro t inh pp pm n h
    simp only [getSub, Option.some.injEq] at h
    subst h
    cases t with
    | file name =>
      refine ⟨.file name, (lookupFile pm.files name).bind (·.title), rfl, rfl, ?_⟩
      rw [walkEntry_file]
      rfl
    | dir nm m cs =>
      refine ⟨.dir nm m cs, (m.bind (·.folder)).bind (·.title), rfl, rfl, ?_⟩
      rw [walkEntry_dir]
      simp only [TocEntry.title, Option.some.injEq]
      cases hm : m.bind (·.folder) with
      | none => simp [hm, FsTree.name]
      | some fo => simp [hm, FsTree.name]
  | cons i rest ih =>
    intro t inh pp pm n h
    cases t with
    | file name =>
      rw [walkEntry_file] at h
      simp [getSub, TocEntry.children] at h
    | dir nm m cs =>
      rw [walkEntry_dir] at h
      simp only [getSub, TocEntry.children, List.getElem?_map] at h
      cases hc : cs[i]? with
      | none => simp [hc] at h
      | some c =>
        rw [hc] at h
        simp only [Option.map_some'] at h
        obtain ⟨fs, ot, h1, h2, h3⟩ := ih c _ _ _ _ h
        exact ⟨fs, ot, by simp [FsTree.sub, hc, h1],
          by simp [overlayTitleAt, hc, h2], h3⟩

/-! ## Concrete example snapshot (spec §8 scenario) -/

/-- Metadata of directory `A`: folder overlay defining `drug = "X"`. -/
def exMetaA : Metadata := ⟨some ⟨some "Accession A", none, some "X", none⟩, []⟩

/-- Snapshot `A/ {drug: "X"} ▸ B/ (no overlay) ▸ doc.pdf`. -/
def exTree : FsTree := .dir "A" (some exMetaA) [.dir "B" none [.file "doc.pdf"]]

/-- The emitted node for `A/B/doc.pdf` in the walk of `exTree`. -/
def exDocNode : TocEntry :=
  .mk "doc.pdf" "pdf" "A/B/doc.pdf" none none none
    (some "doc.pdf") none none (some "X")

/-- **C1.** For every node `N` of the emitted TOC tree (addressed by a
child-index position), the emitted `drug` equals the first own-overlay
`drug` found on the chain from `N` itself upward through its ancestors
to the root: `N`'s own overlay value when it defines one, otherwise the
nearest ancestor's defined value, and `none` (the field is absent, never
an empty-string placeholder) when no node on the chain defines one. -/
theorem toc_drug_inheritance (root : FsTree) (pos : List Nat) (n : TocEntry)
    (h : getSub (assemble root) pos = some n) :
    n.drug = (drugChain root pos).reverse.findSome? id := by
  have := walkEntry_drug pos root none "" Metadata.empty n h
  simpa [Option.or_none] using this

/-- Witness for `toc_drug_inheritance`: the spec §8 scenario — `A/`
defines `drug = "X"`, `A/B/` has no overlay, and the node emitted for
`A/B/doc.pdf` carries the inherited `drug = "X"`. -/
theorem toc_drug_inheritance_witness :
    getSub (assemble exTree) [0, 0] = some exDocNode ∧
    exDocNode.drug = (drugChain exTree [0, 0]).reverse.findSome? id := by
  have h : getSub (assemble exTree) [0, 0] = some exDocNode := by
    simp only [assemble, exTree, exMetaA, walkEntry_dir, walkEntry_file,
      List.map_cons, List.map_nil]
    rfl
  exact ⟨h, toc_drug_inheritance exTree [0, 0] exDocNode h⟩

/-- **C5.** Every emitted node's title is present and defaults to the
node's own name: when the applicable overlay (the matching file overlay
for a file, the `_folder` overlay for a folder) defines no title, the
emitted title is exactly the filename / directory name; consequently,
when entry names are nonempty and defined overlay titles are nonempty,
the displayed title is never the empty string. -/
theorem toc_title_fallback (root : FsTree) (pos : List Nat) (n : TocEntry)
    (h : getSub (assemble root) pos = some n) :
    ∃ fs ot, FsTree.sub root pos = some fs ∧
      overlayTitleAt Metadata.empty root pos = some ot ∧
      n.title = some (ot.getD fs.name) ∧
      (ot = none → n.title = some fs.name) ∧
      (fs.name ≠ "" → (∀ s, ot = some s → s ≠ "") →
        ∀ s, n.title = some s → s ≠ "") := by
  obtain ⟨fs, ot, h1, h2, h3⟩ := walkEntry_title pos root none "" Metadata.empty n h
  refine ⟨fs, ot, h1, h2, h3, ?_, ?_⟩
  · rintro rfl
    simpa using h3
  · intro hname hov s hs
    rw [h3] at hs
    injection hs with hs
    cases ot with
    | none =>
      simp only [Option.getD_none] at hs
      rw [← hs]
      exact hname
    | some t =>
      simp only [Option.getD_some] at hs
      rw [← hs]
      exact hov t rfl

/-- Witness for `toc_title_fallback`: `A/B/doc.pdf` has no file
overlay, and its emitted title is exactly `"doc.pdf"`. -/
theorem toc_title_fallback_witness :
    ∃ fs ot, FsTree.sub exTree [0, 0] = some fs ∧
      overlayTitleAt Metadata.empty exTree [0, 0] = some ot ∧
      exDocNode.title = some (ot.getD fs.name) ∧
      (ot = none → exDocNode.title = some fs.name) ∧
      (fs.name ≠ "" → (∀ s, ot = some s → s ≠ "") →
        ∀ s, exDocNode.title = some s → s ≠ "") :=
  toc_title_fallback exTree [0, 0] exDocNode (by
    simp only [assemble, exTree, exMetaA, walkEntry_dir, walkEntry_file,
      List.map_cons, List.map_nil]
    rfl)

/-! ## The client resolver `findEntryByPath` -/

mutual

/-- The client resolver from `+page.svelte`: if the root's `path`
matches, return it; otherwise search the children (when present) in
order; `none` when nothing matches.  A total function: resolution of an
unknown path is a not-found result, never an exception. -/
def findEntryByPath : TocEntry → String → Option TocEntry
  | .mk nm ty pa children r u ti su tg dr, path =>
    if pa = path then some (.mk nm ty pa children r u ti su tg dr)
    else
      match children with
      | some cs => findInChildren cs path
      | none => none

/-- The `for (const child of root.children)` loop of `findEntryByPath`:
first hit wins. -/
def findInChildren : List TocEntry → String → Option TocEntry
  | [], _ => none
  | c :: rest, path =>
    match findEntryByPath c path with
    | some found => some found
    | none => findInChildren rest path

end

mutual

/-- All nodes of a loaded TOC tree, in depth-first order. -/
def allNodes : TocEntry → List TocEntry
  | .mk nm ty pa children r u ti su tg dr =>
    .mk nm ty pa children r u ti su tg dr ::
      (match children with
       | some cs => allNodesList cs
       | none => [])

/-- All nodes of a list of sibling subtrees, in depth-first order. -/
def allNodesList : List TocEntry → List TocEntry
  | [] => []
  | c :: rest => allNodes c ++ allNodesList rest

end

/-- Unfolding of `findEntryByPath` on a constructed node. -/
theorem findEntryByPath_mk (nm ty pa : String)
    (children : Option (List TocEntry)) (r u ti su : Option String)
    (tg : Option (List String)) (dr : Option String) (p : String) :
    findEntryByPath (.mk nm ty pa children r u ti su tg dr) p =
      if pa = p then some (.mk nm ty pa children r u ti su tg dr)
      else
        match children with
        | some cs => findInChildren cs p
        | none => none := by
  rw [findEntryByPath.eq_def]

/-- Unfolding of `allNodes` on a constructed node. -/
theorem allNodes_mk (nm ty pa : String)
    (children : Option (List TocEntry)) (r u ti su : Option String)
    (tg : Option (List String)) (dr : Option String) :
    allNodes (.mk nm ty pa children r u ti su tg dr) =
      .mk nm ty pa children r u ti su tg dr ::
        (match children with
         | some cs => allNodesList cs
         | none => []) := by
  rw [allNodes.eq_def]

mutual

/-- Any hit of `findEntryByPath` is a node of the tree whose `path` is
the requested one. -/
theorem findEntryByPath_sound : ∀ (t : TocEntry) (p : String) (n : TocEntry),
    findEntryByPath t p = some n → n.path = p ∧ n ∈ allNodes t
  | .mk nm ty pa children r u ti su tg dr, p, n => by
    intro h
    rw [findEntryByPath_mk] at h
    by_cases hp : pa = p
    · rw [if_pos hp] at h
      cases h
      exact ⟨hp, by rw [allNodes_mk]; exact List.mem_cons_self _ _⟩
    · rw [if_neg hp] at h
      cases children with
      | none => exact absurd h (by simp)
      | some cs =>
        have h' : findInChildren cs p = some n := h
        have := findInChildren_sound cs p n h'
        exact ⟨this.1, by rw [allNodes_mk]; exact List.mem_cons_of_mem _ this.2⟩

/-- Any hit of the child loop is a node of one of the sibling subtrees
whose `path` is the requested one. -/
theorem findInChildren_sound : ∀ (cs : List TocEntry) (p : String) (n : TocEntry),
    findInChildren cs p = some n → n.path = p ∧ n ∈ allNodesList cs
  | [], p, n => by
    intro h
    exact absurd h (by rw [findInChildren]; simp)
  | c :: rest, p, n => by
    intro h
    rw [findInChildren] at h
    cases hf : findEntryByPath c p with
    | some f =>
      rw [hf] at h
      have h' : some f = some n := h
      cases h'
      have := findEntryByPath_sound c p n hf
      exact ⟨this.1, by rw [allNodesList]; exact List.mem_append_left _ this.2⟩
    | none =>
      rw [hf] at h
      have h' : findInChildren rest p = some n := h
      have := findInChildren_sound rest p n h'
      exact ⟨this.1, by rw [allNodesList]; exact List.mem_append_right _ this.2⟩

end

mutual

/-- If some node of the tree has the requested `path`, the resolver
finds one. -/
theorem findEntryByPath_complete : ∀ (t : TocEntry) (p : String),
    (∃ n ∈ allNodes t, n.path = p) → (findEntryByPath t p).isSome
  | .mk nm ty pa children r u ti su tg dr, p => by
    intro ⟨n, hmem, hp⟩
    rw [findEntryByPath_mk]
    by_cases hroot : pa = p
    · rw [if_pos hroot]
      rfl
    · rw [if_neg hroot]
      rw [allNodes_mk] at hmem
      rcases List.mem_cons.1 hmem with heq | hmem'
      · rw [heq] at hp
        exact absurd hp hroot
      · cases children with
        | none => exact absurd hmem' (by simp)
        | some cs =>
          show (findInChildren cs p).isSome
          exact findInChildren_complete cs p ⟨n, hmem', hp⟩

/-- If some node of a sibling subtree has the requested `path`, the
child loop finds one. -/
theorem findInChildren_complete : ∀ (cs : List TocEntry) (p : String),
    (∃ n ∈ allNodesList cs, n.path = p) → (findInChildren cs p).isSome
  | [], p => by
    intro ⟨n, hmem, _⟩
    rw [allNodesList] at hmem
    exact absurd hmem (by simp)
  | c :: rest, p => by
    intro ⟨n, hmem, hp⟩
    rw [allNodesList] at hmem
    rw [findInChildren]
    cases hf : findEntryByPath c p with
    | some f => rfl
    | none =>
      rcases List.mem_append.1 hmem with hc | hrest
      · have := findEntryByPath_complete c p ⟨n, hc, hp⟩
        rw [hf] at this
        exact absurd this (by simp)
      · show (findInChildren rest p).isSome
        exact findInChildren_complete rest p ⟨n, hrest, hp⟩

end

/-- The emitted node for folder `A/B`. -/
def exNodeB : TocEntry :=
  .mk "B" "folder" "A/B" (some [exDocNode]) none none (some "B") none none (some "X")

/-- A concrete loaded TOC tree: the assembled form of `exTree`. -/
def exToc : TocEntry :=
  .mk "A" "folder" "A" (some [exNodeB]) none none
    (some "Accession A") none none (some "X")

/-- **C2.** The client resolver is total (a pure function — an unknown
path yields a not-found result, never an exception) and correct: every
hit is a node of the loaded tree carrying exactly the requested `path`;
if some node of the tree has the requested `path` the resolver returns
a hit; and if no node has it, the resolver returns `none`. -/
theorem findEntryByPath_spec (root : TocEntry) (p : String) :
    (∀ n, findEntryByPath root p = some n → n.path = p ∧ n ∈ allNodes root) ∧
    ((∃ n ∈ allNodes root, n.path = p) → (findEntryByPath root p).isSome) ∧
    ((∀ n ∈ allNodes root, n.path ≠ p) → findEntryByPath root p = none) := by
  refine ⟨fun n h => findEntryByPath_sound root p n h,
    findEntryByPath_complete root p, ?_⟩
  intro hall
  cases hres : findEntryByPath root p with
  | none => rfl
  | some n =>
    have := findEntryByPath_sound root p n hres
    exact absurd this.1 (hall n this.2)

/-- Witness for `findEntryByPath_spec`: in the concrete tree, the path
`A/B/doc.pdf` resolves to a hit and the unknown path `missing` resolves
to `none`. -/
theorem findEntryByPath_spec_witness :
    (findEntryByPath exToc "A/B/doc.pdf").isSome ∧
    findEntryByPath exToc "missing" = none := by
  constructor
  · apply (findEntryByPath_spec exToc "A/B/doc.pdf").2.1
    refine ⟨exDocNode, ?_, rfl⟩
    have hall : allNodes exToc = [exToc, exNodeB, exDocNode] := rfl
    rw [hall]
    simp [exDocNode]
  · apply (findEntryByPath_spec exToc "missing").2.2
    intro n hn
    have hall : allNodes exToc = [exToc, exNodeB, exDocNode] := rfl
    rw [hall] at hn
    simp only [List.mem_cons, List.not_mem_nil, or_false] at hn
    rcases hn with rfl | rfl | rfl <;> decide

/-! ## C3: the resolver and unexpanded `$ref` nodes -/

/-- The node for folder `A/B` with its children *not* embedded: an
unexpanded lazy reference to a child `toc.json` fragment. -/
def exLazyNodeB : TocEntry :=
  .mk "B" "folder" "A/B" none (some "toc/A/B.json") none
    (some "B") none none (some "X")

/-- A loaded tree in which the subtree of `A/B` is behind the
unexpanded `$ref` of `exLazyNodeB`. -/
def exLazyRoot : TocEntry :=
  .mk "A" "folder" "A" (some [exLazyNodeB]) none none
    (some "Accession A") none none (some "X")

/-- **C3, counterexample.** In a tree whose `A/B` node carries an
unexpanded `$ref`, resolving the path `A/B/doc.pdf` — which lies inside
that node's subtree and resolves fine on the fully-expanded tree —
returns `none`: `findEntryByPath` does not fetch and splice the
referenced fragment, so resolution does *not* succeed as it would on
the fully-expanded tree. -/
theorem findEntryByPath_ref_counterexample :
    exLazyNodeB.ref = some "toc/A/B.json" ∧
    findEntryByPath exLazyRoot "A/B/doc.pdf" = none ∧
    findEntryByPath exToc "A/B/doc.pdf" = some exDocNode :=
  ⟨rfl, rfl, rfl⟩

/-- **C3, amended.** `findEntryByPath` searches only the currently
loaded tree and performs no fetch: whenever no *loaded* node carries
the requested path — in particular when the path lies inside the
subtree of a node whose `$ref` is still unexpanded, so that the node's
children are absent from the tree — resolution returns the not-found
result `none`.  Resolution succeeds only once the fragment has been
spliced into the tree by other means. -/
theorem findEntryByPath_searches_loaded_only (root : TocEntry) (p : String)
    (h : ∀ n ∈ allNodes root, n.path ≠ p) :
    findEntryByPath root p = none := by
  cases hres : findEntryByPath root p with
  | none => rfl
  | some n =>
    have := findEntryByPath_sound root p n hres
    exact absurd this.1 (h n this.2)

/-- Witness for `findEntryByPath_searches_loaded_only` at the lazy
tree: no loaded node of `exLazyRoot` has path `A/B/doc.pdf`, and the
resolver returns `none`. -/
theorem findEntryByPath_searches_loaded_only_witness :
    findEntryByPath exLazyRoot "A/B/doc.pdf" = none :=
  findEntryByPath_searches_loaded_only exLazyRoot "A/B/doc.pdf" (by
    intro n hn
    have hall : allNodes exLazyRoot = [exLazyRoot, exLazyNodeB] := rfl
    rw [hall] at hn
    simp only [List.mem_cons, List.not_mem_nil, or_false] at hn
    rcases hn with rfl | rfl <;> decide)

/-! ## C4: the lazy walk and fragment expansion -/

mutual

/-- Number of entries in an input subtree (the size measure the lazy
threshold is compared against). -/
def sizeFs : FsTree → Nat
  | .file _ => 1
  | .dir _ _ cs => 1 + sizeFsList cs

/-- Total number of entries in a list of sibling subtrees. -/
def sizeFsList : List FsTree → Nat
  | [] => 0
  | c :: rest => sizeFs c + sizeFsList rest

end

mutual

/-- Height of an input subtree. -/
def depthFs : FsTree → Nat
  | .file _ => 1
  | .dir _ _ cs => 1 + depthFsList cs

/-- Maximal height over a list of sibling subtrees. -/
def depthFsList : List FsTree → Nat
  | [] => 0
  | c :: rest => max (depthFs c) (depthFsList rest)

end

mutual

/-- Modelled from the spec: the walk with lazy loading enabled.  A
directory whose subtree size exceeds the configured threshold is
emitted without inline children, carrying instead a `$ref` keyed by the
folder's path; the full node (with its children walked as usual) is
written out as a separate fragment.  Returns the emitted entry together
with the fragment store produced for the subtree. -/
def lazyWalk (thr : Nat) : Option String → String → Metadata → FsTree →
    TocEntry × List (String × TocEntry)
  | inh, pp, pm, .file name =>
    let ov := lookupFile pm.files name
    (.mk name (extType name) (joinPath pp name) none none none
      (some ((ov.bind (·.title)).getD name))
      (ov.bind (·.summary)) (ov.bind (·.tags)) inh, [])
  | inh, pp, pm, .dir name meta cs =>
    let fo := (meta.bind (·.folder)).getD ⟨none, none, none, none⟩
    let drug := fo.drug.or inh
    let path := joinPath pp name
    let sub := lazyWalkList thr drug path (meta.getD Metadata.empty) cs
    let node := TocEntry.mk name "folder" path (some sub.1) none none
      (some (fo.title.getD name)) fo.summary none drug
    if sizeFs (.dir name meta cs) > thr then
      (.mk name "folder" path none (some path) none
        (some (fo.title.getD name)) fo.summary none drug,
       (path, node) :: sub.2)
    else
      (node, sub.2)

/-- The lazy walk over a list of sibling subtrees, collecting the
emitted entries and concatenating their fragment stores. -/
def lazyWalkList (thr : Nat) : Option String → String → Metadata → List FsTree →
    List TocEntry × List (String × TocEntry)
  | _, _, _, [] => ([], [])
  | inh, pp, pm, c :: rest =>
    let e := lazyWalk thr inh pp pm c
    let es := lazyWalkList thr inh pp pm rest
    (e.1 :: es.1, e.2 ++ es.2)

end

/-- Fuel-bounded expansion of every `$ref` in a loaded tree: a node
carrying a `$ref` is replaced by the fragment the store yields for it
(kept unchanged when the store has none), then children are expanded
recursively.  Fuel at least the tree's height performs the full
expansion. -/
def expandN : Nat → (String → Option TocEntry) → TocEntry → TocEntry
  | 0, _, t => t
  | fuel + 1, F, t =>
    match (match t.ref with
           | some r => (F r).getD t
           | none => t) with
    | .mk nm ty pa children r u ti su tg dr =>
      .mk nm ty pa (children.map (fun cs => cs.map (expandN fuel F)))
        r u ti su tg dr

/-- Association-list lookup finds the stored value of any key present
in a store whose keys are distinct. -/
theorem lookup_of_nodup_keys {α β : Type} [DecidableEq α]
    (l : List (α × β)) (k : α) (v : β) (hmem : (k, v) ∈ l)
    (hnd : (l.map Prod.fst).Nodup) : l.lookup k = some v := by
  induction l with
  | nil => exact absurd hmem (List.not_mem_nil _)
  | cons p rest ih =>
    obtain ⟨k', v'⟩ := p
    simp only [List.map_cons, List.nodup_cons, List.mem_map] at hnd
    rcases List.mem_cons.1 hmem with heq | hrest
    · cases heq
      simp [List.lookup_cons]
    · have hk : k ≠ k' := by
        rintro rfl
        exact hnd.1 ⟨(k, v), hrest, rfl⟩
      have hb : (k == k') = false := by simp [hk]
      simp only [List.lookup_cons, hb]
      exact ih hrest hnd.2

/-- Every subtree of the snapshot has positive height. -/
theorem one_le_depthFs (t : FsTree) : 1 ≤ depthFs t := by
  cases t with
  | file n => exact le_refl _
  | dir n m cs => show 1 ≤ 1 + depthFsList cs; omega

/-- Unfolding of `lazyWalkList` on a cons cell. -/
theorem lazyWalkList_cons (thr : Nat) (inh : Option String) (pp : String)
    (pm : Metadata) (c : FsTree) (rest : List FsTree) :
    lazyWalkList thr inh pp pm (c :: rest) =
      ((lazyWalk thr inh pp pm c).1 :: (lazyWalkList thr inh pp pm rest).1,
       (lazyWalk thr inh pp pm c).2 ++ (lazyWalkList thr inh pp pm rest).2) := by
  rw [lazyWalkList.eq_def]

theorem expand_lazyWalk_all (thr : Nat) (F : String → Option TocEntry) :
    ∀ (fuel : Nat),
      (∀ (t : FsTree) (inh : Option String) (pp : String) (pm : Metadata),
        (∀ k v, (k, v) ∈ (lazyWalk thr inh pp pm t).2 → F k = some v) →
        depthFs t ≤ fuel →
        expandN fuel F (lazyWalk thr inh pp pm t).1 = walkEntry inh pp pm t) ∧
      (∀ (cs : List FsTree) (inh : Option String) (pp : String) (pm : Metadata),
        (∀ k v, (k, v) ∈ (lazyWalkList thr inh pp pm cs).2 → F k = some v) →
        depthFsList cs ≤ fuel →
        (lazyWalkList thr inh pp pm cs).1.map (expandN fuel F) =
          cs.map (walkEntry inh pp pm)) := by
  intro fuel
  induction fuel with
  | zero =>
    constructor
    · intro t inh pp pm _ hdep
      exact absurd (le_trans (one_le_depthFs t) hdep) (by omega)
    · intro cs inh pp pm _ hdep
      cases cs with
      | nil => rfl
      | cons c rest =>
        have h1 := one_le_depthFs c
        have h2 : depthFsList (c :: rest) = max (depthFs c) (depthFsList rest) := rfl
        omega
  | succ fuel ih =>
    obtain ⟨ihT, ihL⟩ := ih
    have treeCase : ∀ (t : FsTree) (inh : Option String) (pp : String) (pm : Metadata),
        (∀ k v, (k, v) ∈ (lazyWalk thr inh pp pm t).2 → F k = some v) →
        depthFs t ≤ fuel + 1 →
        expandN (fuel + 1) F (lazyWalk thr inh pp pm t).1 = walkEntry inh pp pm t := by
      intro t inh pp pm hF hdep
      cases t with
      | file name =>
        rw [walkEntry_file]
        rfl
      | dir name meta cs =>
        have hdepc : depthFsList cs ≤ fuel := by
          have h : depthFs (.dir name meta cs) = 1 + depthFsList cs := rfl
          omega
        rw [walkEntry_dir]
        by_cases hbig : sizeFs (.dir name meta cs) > thr
        · simp only [lazyWalk.eq_def, if_pos hbig] at hF ⊢
          have hFnode := hF _ _ (List.mem_cons_self _ _)
          simp only [expandN, TocEntry.ref, hFnode, Option.getD_some,
            Option.map_some', List.map_map]
          have heq := ihL cs _ _ _
            (fun k v hm => hF k v (List.mem_cons_of_mem _ hm)) hdepc
          rw [heq]
        · simp only [lazyWalk.eq_def, if_neg hbig] at hF ⊢
          simp only [expandN, TocEntry.ref, Option.map_some', List.map_map]
          have heq := ihL cs _ _ _ hF hdepc
          rw [heq]
    refine ⟨treeCase, ?_⟩
    intro cs
    induction cs with
    | nil => intro inh pp pm _ _; rfl
    | cons c rest ihrest =>
      intro inh pp pm hF hdep
      have hdc : depthFs c ≤ fuel + 1 := by
        have h : depthFsList (c :: rest) = max (depthFs c) (depthFsList rest) := rfl
        omega
      have hdr : depthFsList rest ≤ fuel + 1 := by
        have h : depthFsList (c :: rest) = max (depthFs c) (depthFsList rest) := rfl
        omega
      rw [lazyWalkList_cons] at hF
      rw [lazyWalkList_cons]
      simp only [List.map_cons]
      congr 1
      · exact treeCase c inh pp pm
          (fun k v hm => hF k v (List.mem_append_left _ hm)) hdc
      · exact ihrest inh pp pm
          (fun k v hm => hF k v (List.mem_append_right _ hm)) hdr

/-- **C4.** Expanding every `$ref` of the lazily assembled tree (with
any threshold), using the fragment store the lazy walk produced, yields
exactly the tree assembled with lazy loading disabled — the same nodes
with the same paths and the same merged `title`/`summary`/`tags`/`drug`
fields — provided the fragment keys are distinct (true of any real
directory snapshot, where sibling names are distinct). -/
theorem lazy_expand_equiv (root : FsTree) (thr : Nat)
    (hnodup : (((lazyWalk thr none "" Metadata.empty root).2).map Prod.fst).Nodup) :
    expandN (depthFs root)
        (fun k => ((lazyWalk thr none "" Metadata.empty root).2).lookup k)
        (lazyWalk thr none "" Metadata.empty root).1 =
      assemble root := by
  apply (expand_lazyWalk_all thr _ (depthFs root)).1
  · intro k v hm
    exact lookup_of_nodup_keys _ k v hm hnodup
  · exact le_refl _

/-- Witness for `lazy_expand_equiv`: with threshold 1 both `A` and
`A/B` are emitted as `$ref` nodes, their fragment keys are distinct,
and full expansion reproduces the non-lazy tree. -/
theorem lazy_expand_equiv_witness :
    (((lazyWalk 1 none "" Metadata.empty exTree).2).map Prod.fst).Nodup ∧
    expandN (depthFs exTree)
        (fun k => ((lazyWalk 1 none "" Metadata.empty exTree).2).lookup k)
        (lazyWalk 1 none "" Metadata.empty exTree).1 = assemble exTree := by
  have hnd : (((lazyWalk 1 none "" Metadata.empty exTree).2).map Prod.fst).Nodup := by
    decide
  exact ⟨hnd, lazy_expand_equiv exTree 1 hnd⟩

/-! ## C6: determinism of the assembler -/

/-- Serialization of an optional string field. -/
def serializeOptStr : Option String → String
  | some s => "(" ++ s ++ ")"
  | none => "null"

/-- Serialization of an optional tag list. -/
def serializeTags : Option (List String) → String
  | some ts => "[" ++ String.intercalate ";" ts ++ "]"
  | none => "null"

mutual

/-- A byte serialization of an emitted TOC node (field order fixed),
standing in for the emitted JSON. -/
def serializeToc : TocEntry → String
  | .mk nm ty pa children r u ti su tg dr =>
    "(name:" ++ nm ++ ";type:" ++ ty ++ ";path:" ++ pa ++
    ";children:" ++ (match children with
                     | some cs => "[" ++ serializeTocList cs ++ "]"
                     | none => "null") ++
    ";ref:" ++ serializeOptStr r ++ ";url:" ++ serializeOptStr u ++
    ";title:" ++ serializeOptStr ti ++ ";summary:" ++ serializeOptStr su ++
    ";tags:" ++ serializeTags tg ++ ";drug:" ++ serializeOptStr dr ++ ")"

/-- Serialization of a sibling list, comma-separated. -/
def serializeTocList : List TocEntry → String
  | [] => ""
  | [t] => serializeToc t
  | t :: rest => serializeToc t ++ "," ++ serializeTocList rest

end

/-- Serialization of the fragment store produced by the lazy walk. -/
def serializeFrags (l : List (String × TocEntry)) : String :=
  String.intercalate "," (l.map (fun kv => kv.1 ++ "=" ++ serializeToc kv.2))

/-- **C6.** The assembler is a deterministic pure function of the
directory-plus-overlay snapshot and the lazy threshold configuration:
two runs on equal inputs produce byte-for-byte identical serialized
trees and identical fragment stores.  (In this embedding the walk is a
pure function, so determinism is definitional.) -/
theorem assembler_deterministic (root1 root2 : FsTree) (thr1 thr2 : Nat)
    (hroot : root1 = root2) (hthr : thr1 = thr2) :
    serializeToc (lazyWalk thr1 none "" Metadata.empty root1).1 =
      serializeToc (lazyWalk thr2 none "" Metadata.empty root2).1 ∧
    serializeFrags (lazyWalk thr1 none "" Metadata.empty root1).2 =
      serializeFrags (lazyWalk thr2 none "" Metadata.empty root2).2 := by
  subst hroot
  subst hthr
  exact ⟨rfl, rfl⟩

/-- Witness for `assembler_deterministic`: two runs on the concrete
snapshot `exTree` with threshold 1 serialize identically. -/
theorem assembler_deterministic_witness :
    serializeToc (lazyWalk 1 none "" Metadata.empty exTree).1 =
      serializeToc (lazyWalk 1 none "" Metadata.empty exTree).1 ∧
    serializeFrags (lazyWalk 1 none "" Metadata.empty exTree).2 =
      serializeFrags (lazyWalk 1 none "" Metadata.empty exTree).2 :=
  assembler_deterministic exTree exTree 1 1 rfl rfl

/-! ## C7: the ancestor chain of a deep-linked path -/

/-- JS strings of the client's hash/path plumbing are modelled as
`List Char`. -/
abbrev JStr := List Char

/-- `getParentPaths` from `+page.svelte`: split the path on `/`, then
for each `i` in `1 .. parts.length - 1` insert the join of the first
`i` segments.  A JS `Set` preserves insertion order and the inserted
joins are pairwise distinct (strictly growing lengths), so a list is a
faithful model of the returned set. -/
def getParentPaths (filePath : JStr) : List JStr :=
  let parts := filePath.splitOn '/'
  (List.range' 1 (parts.length - 1)).map
    (fun i => List.intercalate ['/'] (parts.take i))

/-- `intercalate` over a list with at least two segments. -/
theorem intercalate_cons_cons {α : Type} (s a b : List α) (t : List (List α)) :
    List.intercalate s (a :: b :: t) = a ++ s ++ List.intercalate s (b :: t) := by
  simp [List.intercalate, List.intersperse_cons_cons]

/-- `intercalate` of a single segment. -/
theorem intercalate_single {α : Type} (s a : List α) :
    List.intercalate s [a] = a := by
  simp [List.intercalate]

/-- Joining a proper nonempty prefix of the segments is strictly
shorter than joining all of them (separator `['/']`). -/
theorem length_intercalate_take_lt {α : Type} (c : α) :
    ∀ (ls : List (List α)) (i : Nat), 1 ≤ i → i < ls.length →
      (List.intercalate [c] (ls.take i)).length <
        (List.intercalate [c] ls).length := by
  intro ls
  induction ls with
  | nil => intro i _ h2; simp at h2
  | cons a tl ih =>
    intro i h1 h2
    match i, h1 with
    | 1, _ =>
      simp only [List.take_succ_cons, List.take_zero]
      match tl, h2 with
      | b :: t, _ =>
        rw [intercalate_single, intercalate_cons_cons]
        simp only [List.length_append, List.length_cons, List.length_nil]
        omega
    | (j + 2), _ =>
      have hj : j + 1 < tl.length := by
        simp only [List.length_cons] at h2
        omega
      match tl, hj with
      | b :: t, hj =>
        have htake : List.take (j + 2) (a :: b :: t) =
            a :: List.take (j + 1) (b :: t) := rfl
        rw [htake]
        have hne : List.take (j + 1) (b :: t) = b :: List.take j t := rfl
        rw [hne, intercalate_cons_cons, intercalate_cons_cons]
        simp only [List.length_append, List.length_cons, List.length_nil]
        have := ih (j + 1) (by omega) hj
        rw [hne] at this
        omega

/-- **C7.** For a path of `k` slash-separated segments,
`getParentPaths` returns exactly the `k - 1` proper segment prefixes —
the joins of the first `1 .. k-1` segments — and never contains the
full path itself. -/
theorem getParentPaths_spec (p : JStr) :
    (∀ s, s ∈ getParentPaths p ↔
      ∃ i, 1 ≤ i ∧ i < (p.splitOn '/').length ∧
        s = List.intercalate ['/'] ((p.splitOn '/').take i)) ∧
    p ∉ getParentPaths p := by
  have hk : 1 ≤ (p.splitOn '/').length :=
    List.length_pos.2 (List.splitOnP_ne_nil _ p)
  have hmem : ∀ s, s ∈ getParentPaths p ↔
      ∃ i, 1 ≤ i ∧ i < (p.splitOn '/').length ∧
        s = List.intercalate ['/'] ((p.splitOn '/').take i) := by
    intro s
    simp only [getParentPaths, List.mem_map, List.mem_range'_1]
    constructor
    · rintro ⟨i, ⟨hi1, hi2⟩, rfl⟩
      exact ⟨i, hi1, by omega, rfl⟩
    · rintro ⟨i, hi1, hi2, rfl⟩
      exact ⟨i, ⟨hi1, by omega⟩, rfl⟩
  refine ⟨hmem, ?_⟩
  intro hp
  obtain ⟨i, hi1, hi2, hpe⟩ := (hmem p).1 hp
  have hlen := length_intercalate_take_lt '/' (p.splitOn '/') i hi1 hi2
  rw [List.intercalate_splitOn p '/'] at hlen
  rw [← hpe] at hlen
  omega

/-- Witness for `getParentPaths_spec`: the ancestor chain of
`a/b/c.pdf` is exactly `[a, a/b]` and omits the full path. -/
theorem getParentPaths_spec_witness :
    getParentPaths ("a/b/c.pdf".data) = ["a".data, "a/b".data] ∧
    "a/b/c.pdf".data ∉ getParentPaths ("a/b/c.pdf".data) :=
  ⟨by decide, (getParentPaths_spec ("a/b/c.pdf".data)).2⟩

/-! ## C8/C9: hash-based deep linking (`parseHash` / `updateHash`)

Browser builtins (`encodeURIComponent`, `decodeURIComponent`,
`URLSearchParams`, `parseInt`) are modelled at the character level
over `List Char`. -/

/-- Value of a hexadecimal digit character (code points 48–57 are
`0`–`9`, 65–70 are `A`–`F`, 97–102 are `a`–`f`). -/
def hexVal (c : Char) : Option Nat :=
  let u := c.toNat
  if 48 ≤ u ∧ u ≤ 57 then some (u - 48)
  else if 65 ≤ u ∧ u ≤ 70 then some (u - 55)
  else if 97 ≤ u ∧ u ≤ 102 then some (u - 87)
  else none

/-- Uppercase hexadecimal digit character for a value below 16. -/
def hexDigit (n : Nat) : Char :=
  Char.ofNat (if n < 10 then n + 48 else n + 55)

/-- The UTF-8 bytes of one character. -/
def utf8Bytes (c : Char) : List Nat :=
  let n := c.toNat
  if n < 0x80 then [n]
  else if n < 0x800 then [0xC0 + n / 64, 0x80 + n % 64]
  else if n < 0x10000 then
    [0xE0 + n / 4096, 0x80 + (n / 64) % 64, 0x80 + n % 64]
  else
    [0xF0 + n / 0x40000, 0x80 + (n / 4096) % 64, 0x80 + (n / 64) % 64,
     0x80 + n % 64]

/-- Percent escape of one byte. -/
def pctByte (b : Nat) : JStr := ['%', hexDigit (b / 16), hexDigit (b % 16)]

/-- The characters `encodeURIComponent` leaves unescaped. -/
def isUnreserved (c : Char) : Bool :=
  ('A' ≤ c ∧ c ≤ 'Z') ∨ ('a' ≤ c ∧ c ≤ 'z') ∨ ('0' ≤ c ∧ c ≤ '9') ∨
    c ∈ (['-', '_', '.', '!', '~', '*', '(', ')', '\''] : List Char)

/-- Model of the `encodeURIComponent` builtin: unreserved characters
pass through, every other character is replaced by the percent escapes
of its UTF-8 bytes. -/
def encodeURIComponent : JStr → JStr
  | [] => []
  | c :: rest =>
    (if isUnreserved c then [c] else (utf8Bytes c).map pctByte |>.flatten) ++
      encodeURIComponent rest

/-- A token of a percent-encoded string: a literal character or the
byte of one percent escape. -/
inductive PctTok where
  | lit (c : Char)
  | byte (b : Nat)
deriving Repr, DecidableEq

/-- First phase of `decodeURIComponent`: turn every `%XX` escape into
a byte token; `none` models the `URIError` thrown on a malformed
escape. -/
def pctTokens : JStr → Option (List PctTok)
  | [] => some []
  | c :: rest =>
    if c = '%' then
      match rest with
      | h1 :: h2 :: rest2 =>
        match hexVal h1, hexVal h2 with
        | some a, some b => (pctTokens rest2).map (PctTok.byte (16 * a + b) :: ·)
        | _, _ => none
      | _ => none
    else (pctTokens rest).map (PctTok.lit c :: ·)

/-- The value carried by a UTF-8 continuation-byte token; `none` when
the token is not a continuation byte from a percent escape. -/
def contVal : PctTok → Option Nat
  | .byte b => if 0x80 ≤ b ∧ b < 0xC0 then some (b - 0x80) else none
  | .lit _ => none

/-- Finish a two-byte UTF-8 sequence from its continuation token. -/
def finish1 (hi : Nat) (t1 : PctTok) (res : Option JStr) : Option JStr :=
  match contVal t1 with
  | some v1 =>
    if (hi * 64 + v1).isValidChar then res.map (Char.ofNat (hi * 64 + v1) :: ·)
    else none
  | none => none

/-- Finish a three-byte UTF-8 sequence from its continuation tokens. -/
def finish2 (hi : Nat) (t1 t2 : PctTok) (res : Option JStr) : Option JStr :=
  match contVal t1, contVal t2 with
  | some v1, some v2 =>
    if (hi * 4096 + v1 * 64 + v2).isValidChar then
      res.map (Char.ofNat (hi * 4096 + v1 * 64 + v2) :: ·)
    else none
  | _, _ => none

/-- Finish a four-byte UTF-8 sequence from its continuation tokens. -/
def finish3 (hi : Nat) (t1 t2 t3 : PctTok) (res : Option JStr) : Option JStr :=
  match contVal t1, contVal t2, contVal t3 with
  | some v1, some v2, some v3 =>
    if (hi * 0x40000 + v1 * 4096 + v2 * 64 + v3).isValidChar then
      res.map (Char.ofNat (hi * 0x40000 + v1 * 4096 + v2 * 64 + v3) :: ·)
    else none
  | _, _, _ => none

/-- Second phase of `decodeURIComponent`: UTF-8-decode the byte tokens
(each continuation byte must itself come from a percent escape);
`none` models the `URIError` thrown on an invalid sequence. -/
def utf8DecodeToks : List PctTok → Option JStr
  | [] => some []
  | .lit c :: rest => (utf8DecodeToks rest).map (c :: ·)
  | .byte b0 :: rest =>
    if b0 < 0x80 then (utf8DecodeToks rest).map (Char.ofNat b0 :: ·)
    else if 0xC0 ≤ b0 ∧ b0 < 0xE0 then
      match rest with
      | [] => none
      | t1 :: r1 => finish1 (b0 - 0xC0) t1 (utf8DecodeToks r1)
    else if 0xE0 ≤ b0 ∧ b0 < 0xF0 then
      match rest with
      | [] => none
      | t1 :: r1 =>
        match r1 with
        | [] => none
        | t2 :: r2 => finish2 (b0 - 0xE0) t1 t2 (utf8DecodeToks r2)
    else if 0xF0 ≤ b0 ∧ b0 < 0xF8 then
      match rest with
      | [] => none
      | t1 :: r1 =>
        match r1 with
        | [] => none
        | t2 :: r2 =>
          match r2 with
          | [] => none
          | t3 :: r3 => finish3 (b0 - 0xF0) t1 t2 t3 (utf8DecodeToks r3)
    else none

/-- Model of the `decodeURIComponent` builtin; `none` models a thrown
`URIError`. -/
def decodeURIComponent (s : JStr) : Option JStr :=
  (pctTokens s).bind utf8DecodeToks

/-- The token sequence one character contributes to the encoding. -/
def tokOf (c : Char) : List PctTok :=
  if isUnreserved c then [.lit c] else (utf8Bytes c).map .byte

theorem hexVal_hexDigit : ∀ n, n < 16 → hexVal (hexDigit n) = some n := by
  decide

/-- Every UTF-8 byte of a character is below 256. -/
theorem utf8Bytes_lt (c : Char) : ∀ b ∈ utf8Bytes c, b < 256 := by
  intro b hb
  have hval : c.toNat.isValidChar := c.valid
  have hlt : c.toNat < 0x110000 := by
    rcases hval with h | ⟨_, h⟩ <;> omega
  unfold utf8Bytes at hb
  simp only [] at hb
  split_ifs at hb with h1 h2 h3
  · simp only [List.mem_singleton] at hb
    omega
  · simp only [List.mem_cons, List.not_mem_nil, or_false] at hb
    rcases hb with rfl | rfl <;> omega
  · simp only [List.mem_cons, List.not_mem_nil, or_false] at hb
    rcases hb with rfl | rfl | rfl <;> omega
  · simp only [List.mem_cons, List.not_mem_nil, or_false] at hb
    rcases hb with rfl | rfl | rfl | rfl <;> omega

theorem pctTokens_byte (b : Nat) (hb : b < 256) (t : JStr) :
    pctTokens (pctByte b ++ t) = (pctTokens t).map (.byte b :: ·) := by
  have e1 := hexVal_hexDigit (b / 16) (by omega)
  have e2 := hexVal_hexDigit (b % 16) (by omega)
  have : 16 * (b / 16) + b % 16 = b := by omega
  simp only [pctByte, List.cons_append, List.nil_append, pctTokens,
    eq_self_iff_true, if_true, e1, e2, List.append_eq, this]

theorem pctTokens_lit (c : Char) (hc : c ≠ '%') (t : JStr) :
    pctTokens (c :: t) = (pctTokens t).map (.lit c :: ·) := by
  rw [pctTokens.eq_def]
  simp [hc]

theorem unreserved_ne_pct (c : Char) (h : isUnreserved c = true) : c ≠ '%' := by
  rintro rfl
  revert h
  decide

theorem pctTokens_bytes : ∀ (bs : List Nat), (∀ b ∈ bs, b < 256) → ∀ t,
    pctTokens ((bs.map pctByte).flatten ++ t) =
      (pctTokens t).map ((bs.map .byte) ++ ·) := by
  intro bs
  induction bs with
  | nil =>
    intro _ t
    simp only [List.map_nil, List.flatten_nil, List.nil_append]
    cases pctTokens t <;> simp
  | cons b rest ih =>
    intro hb t
    simp only [List.map_cons, List.flatten_cons, List.append_assoc]
    rw [pctTokens_byte b (hb b (List.mem_cons_self _ _)),
      ih (fun x hx => hb x (List.mem_cons_of_mem _ hx))]
    cases pctTokens t <;> simp

/-- Tokenizing the encoding of a string succeeds and yields each
character's token contribution in order. -/
theorem pctTokens_encode (s : JStr) :
    pctTokens (encodeURIComponent s) = some (s.flatMap tokOf) := by
  induction s with
  | nil => rfl
  | cons c rest ih =>
    show pctTokens
        ((if isUnreserved c then [c] else ((utf8Bytes c).map pctByte).flatten) ++
          encodeURIComponent rest) = _
    by_cases hu : isUnreserved c
    · simp only [if_pos hu, List.cons_append, List.nil_append]
      rw [pctTokens_lit c (unreserved_ne_pct c hu), ih]
      simp [tokOf, hu]
    · simp only [if_neg hu]
      rw [pctTokens_bytes (utf8Bytes c) (utf8Bytes_lt c), ih]
      simp [tokOf, hu]

/-- Decoding the token contribution of one character prepends exactly
that character. -/
theorem utf8DecodeToks_tokOf (c : Char) (ts : List PctTok) :
    utf8DecodeToks (tokOf c ++ ts) = (utf8DecodeToks ts).map (c :: ·) := by
  have hval : c.toNat.isValidChar := c.valid
  have hlt : c.toNat < 0x110000 := by
    rcases hval with h | ⟨_, h⟩ <;> omega
  by_cases hu : isUnreserved c
  · simp only [tokOf, if_pos hu, List.cons_append, List.nil_append]
    rw [utf8DecodeToks.eq_def]
  · simp only [tokOf, if_neg hu]
    unfold utf8Bytes
    simp only []
    by_cases h1 : c.toNat < 0x80
    · simp only [if_pos h1, List.map_cons, List.map_nil, List.cons_append,
        List.nil_append]
      rw [utf8DecodeToks.eq_def]
      simp only [if_pos h1, Char.ofNat_toNat]
    · by_cases h2 : c.toNat < 0x800
      · simp only [if_neg h1, if_pos h2, List.map_cons, List.map_nil,
          List.cons_append, List.nil_append]
        rw [utf8DecodeToks.eq_def]
        have c1 : ¬(0xC0 + c.toNat / 64 < 0x80) := by omega
        have c2 : 0xC0 ≤ 0xC0 + c.toNat / 64 ∧ 0xC0 + c.toNat / 64 < 0xE0 := by
          omega
        have c3 : 0x80 ≤ 0x80 + c.toNat % 64 ∧ 0x80 + c.toNat % 64 < 0xC0 := by
          omega
        have hcp : (0xC0 + c.toNat / 64 - 0xC0) * 64 +
            (0x80 + c.toNat % 64 - 0x80) = c.toNat := by omega
        simp only [if_neg c1, if_pos c2, if_pos c3, hcp, if_pos hval,
          Char.ofNat_toNat]
        simp only [finish1, contVal, if_pos c3, hcp, if_pos hval,
          Char.ofNat_toNat]
      · by_cases h3 : c.toNat < 0x10000
        · simp only [if_neg h1, if_neg h2, if_pos h3, List.map_cons,
            List.map_nil, List.cons_append, List.nil_append]
          rw [utf8DecodeToks.eq_def]
          have c1 : ¬(0xE0 + c.toNat / 4096 < 0x80) := by omega
          have c2 : ¬(0xC0 ≤ 0xE0 + c.toNat / 4096 ∧
              0xE0 + c.toNat / 4096 < 0xE0) := by omega
          have c3 : 0xE0 ≤ 0xE0 + c.toNat / 4096 ∧
              0xE0 + c.toNat / 4096 < 0xF0 := by omega
          have c4 : (0x80 ≤ 0x80 + c.toNat / 64 % 64 ∧
              0x80 + c.toNat / 64 % 64 < 0xC0) ∧
              (0x80 ≤ 0x80 + c.toNat % 64 ∧ 0x80 + c.toNat % 64 < 0xC0) := by
            omega
          have hcp : (0xE0 + c.toNat / 4096 - 0xE0) * 4096 +
              (0x80 + c.toNat / 64 % 64 - 0x80) * 64 +
              (0x80 + c.toNat % 64 - 0x80) = c.toNat := by omega
          simp only [if_neg c1, if_neg c2, if_pos c3, if_pos c4, hcp,
            if_pos hval, Char.ofNat_toNat]
          simp only [finish2, contVal, if_pos c4.1, if_pos c4.2, hcp,
            if_pos hval, Char.ofNat_toNat]
        · simp only [if_neg h1, if_neg h2, if_neg h3, List.map_cons,
            List.map_nil, List.cons_append, List.nil_append]
          rw [utf8DecodeToks.eq_def]
          have c1 : ¬(0xF0 + c.toNat / 0x40000 < 0x80) := by omega
          have c2 : ¬(0xC0 ≤ 0xF0 + c.toNat / 0x40000 ∧
              0xF0 + c.toNat / 0x40000 < 0xE0) := by omega
          have c3 : ¬(0xE0 ≤ 0xF0 + c.toNat / 0x40000 ∧
              0xF0 + c.toNat / 0x40000 < 0xF0) := by omega
          have c4 : 0xF0 ≤ 0xF0 + c.toNat / 0x40000 ∧
              0xF0 + c.toNat / 0x40000 < 0xF8 := by omega
          have c5 : (0x80 ≤ 0x80 + c.toNat / 4096 % 64 ∧
              0x80 + c.toNat / 4096 % 64 < 0xC0) ∧
              (0x80 ≤ 0x80 + c.toNat / 64 % 64 ∧
                0x80 + c.toNat / 64 % 64 < 0xC0) ∧
              (0x80 ≤ 0x80 + c.toNat % 64 ∧ 0x80 + c.toNat % 64 < 0xC0) := by
            omega
          have hcp : (0xF0 + c.toNat / 0x40000 - 0xF0) * 0x40000 +
              (0x80 + c.toNat / 4096 % 64 - 0x80) * 4096 +
              (0x80 + c.toNat / 64 % 64 - 0x80) * 64 +
              (0x80 + c.toNat % 64 - 0x80) = c.toNat := by omega
          simp only [if_neg c1, if_neg c2, if_neg c3, if_pos c4, if_pos c5,
            hcp, if_pos hval, Char.ofNat_toNat]
          simp only [finish3, contVal, if_pos c5.1, if_pos c5.2.1,
            if_pos c5.2.2, hcp, if_pos hval, Char.ofNat_toNat]

/-- Decoding the token sequence of a whole string succeeds and
reproduces the string. -/
theorem utf8DecodeToks_flat (s : JStr) :
    utf8DecodeToks (s.flatMap tokOf) = some s := by
  induction s with
  | nil => rfl
  | cons c rest ih =>
    rw [List.flatMap_cons, utf8DecodeToks_tokOf, ih]
    rfl

/-- The `decodeURIComponent` model is a left inverse of the
`encodeURIComponent` model. -/
theorem decodeURIComponent_encode (s : JStr) :
    decodeURIComponent (encodeURIComponent s) = some s := by
  unfold decodeURIComponent
  rw [pctTokens_encode]
  exact utf8DecodeToks_flat s

/-- The `+` → space conversion of form decoding. -/
def plusToSpace (s : JStr) : JStr := s.map (fun c => if c = '+' then ' ' else c)

/-- Model of `URLSearchParams` component decoding: plus-to-space then
percent decoding, leaving the string unchanged when its escapes do not
decode (`URLSearchParams` never throws). -/
def formDecode (s : JStr) : JStr :=
  (decodeURIComponent (plusToSpace s)).getD (plusToSpace s)

/-- Model of `new URLSearchParams(q)`: split on `&`, drop empty
segments, split each segment at its first `=` into a decoded name and
decoded value (no `=` gives the empty value). -/
def searchPairs (q : JStr) : List (JStr × JStr) :=
  (q.splitOn '&').filterMap (fun seg =>
    if seg = [] then none
    else
      match seg.splitOn '=' with
      | name :: valParts =>
        some (formDecode name, formDecode (List.intercalate ['='] valParts))
      | [] => none)

/-- Model of `params.get(name)`: the value of the first pair with the
given name, `null` (`none`) otherwise. -/
def searchParamsGet (q : JStr) (name : JStr) : Option JStr :=
  (searchPairs q).findSome? (fun kv => if kv.1 = name then some kv.2 else none)

/-- The whitespace characters `parseInt` skips. -/
def isJsWs (c : Char) : Bool :=
  c = ' ' ∨ c = '\t' ∨ c = '\n' ∨ c = '\r' ∨ c = '\x0b' ∨ c = '\x0c'

/-- Decimal digit test. -/
def isDigit (c : Char) : Bool := '0' ≤ c ∧ c ≤ '9'

/-- Value of a digit string, most significant first. -/
def digitsToNat (ds : JStr) : Nat :=
  ds.foldl (fun acc c => 10 * acc + (c.toNat - 48)) 0

/-- The value of the leading digit run, `none` when there is none. -/
def parseDigits (s : JStr) : Option Nat :=
  let ds := s.takeWhile isDigit
  if ds = [] then none else some (digitsToNat ds)

/-- Model of `parseInt(s, 10)`: skip whitespace, optional sign, read
the leading digits and ignore the rest; `none` models `NaN`. -/
def jsParseInt (s : JStr) : Option Int :=
  match s.dropWhile isJsWs with
  | [] => none
  | c :: r =>
    if c = '-' then (parseDigits r).map (fun n => -(n : Int))
    else if c = '+' then (parseDigits r).map (fun n => (n : Int))
    else (parseDigits (c :: r)).map (fun n => (n : Int))

/-- The scroll position `parseHash` reports: JS `null`, `NaN`, or an
integer. -/
inductive ScrollVal where
  | null
  | nan
  | val (n : Int)
deriving Repr, DecidableEq

/-- The scroll/page parameter string `parseHash` selects:
`params.get('scroll') || params.get('page')` on the query part — a
missing query, an empty query, and a present-but-empty `scroll` falling
through to `page`. -/
def selectedScrollParam (hash : JStr) : Option JStr :=
  match (hash.splitOn '?')[1]? with
  | none => none
  | some q =>
    if q = [] then none
    else
      match searchParamsGet q ("scroll".data) with
      | some s => if s = [] then searchParamsGet q ("page".data) else some s
      | none => searchParamsGet q ("page".data)

/-- `parseHash` from `+page.svelte`, on the location hash with its
leading `#` removed: an empty hash gives the landing state; otherwise
the part before the first `?` is percent-decoded into the path (`none`
models the `URIError` thrown by `decodeURIComponent`), and the selected
scroll parameter, when present and nonempty, goes through `parseInt`
(`ScrollVal.nan` models a `NaN` result). -/
def parseHash (hash : JStr) : Option (JStr × ScrollVal) :=
  if hash = [] then some ([], .null)
  else
    match decodeURIComponent ((hash.splitOn '?').headD []) with
    | none => none
    | some path =>
      some (path,
        match selectedScrollParam hash with
        | none => .null
        | some s =>
          if s = [] then .null
          else
            match jsParseInt s with
            | some n => .val n
            | none => .nan)

/-- Decimal digits of a natural number (JS number-to-string for
non-negative integers), via a fuel-bounded accumulator. -/
def natDigitsAux : Nat → Nat → JStr → JStr
  | 0, _, acc => acc
  | fuel + 1, n, acc =>
    if n < 10 then Char.ofNat (n + 48) :: acc
    else natDigitsAux fuel (n / 10) (Char.ofNat (n % 10 + 48) :: acc)

/-- Decimal digit string of a natural number. -/
def natDigits (n : Nat) : JStr := natDigitsAux (n + 1) n []

/-- `updateHash` from `+page.svelte`: percent-encode the path and, when
a scroll position is present, append `?page=N` when the selected entry
is a PDF, else `?scroll=N`.  (The write of `'#' + hash` and the read of
`location.hash.slice(1)` cancel, so the modelled write/read unit is the
hash without `#`.) -/
def updateHash (isPdf : Bool) (path : JStr) (scroll : Option Nat) : JStr :=
  match scroll with
  | none => encodeURIComponent path
  | some n =>
    encodeURIComponent path ++
      '?' :: ((if isPdf then "page".data else "scroll".data) ++ '=' :: natDigits n)

/-- Characters of an encoded string: unreserved originals, `%`, or hex
digits. -/
theorem mem_encode (x : Char) (s : JStr) (hx : x ∈ encodeURIComponent s) :
    isUnreserved x ∨ x = '%' ∨ ∃ n, n < 16 ∧ x = hexDigit n := by
  induction s with
  | nil => cases hx
  | cons c r ih =>
    rw [encodeURIComponent] at hx
    rcases List.mem_append.1 hx with hl | hr
    · by_cases hu : isUnreserved c
      · rw [if_pos hu] at hl
        rcases List.mem_singleton.1 hl with rfl
        exact Or.inl hu
      · rw [if_neg hu] at hl
        obtain ⟨l, hlmem, hxl⟩ := List.mem_flatten.1 hl
        obtain ⟨b, hb, rfl⟩ := List.mem_map.1 hlmem
        have hb256 := utf8Bytes_lt c b hb
        simp only [pctByte, List.mem_cons, List.not_mem_nil, or_false] at hxl
        rcases hxl with rfl | rfl | rfl
        · exact .inr (.inl rfl)
        · exact .inr (.inr ⟨b / 16, by omega, rfl⟩)
        · exact .inr (.inr ⟨b % 16, by omega, rfl⟩)
    · exact ih hr

/-- `?` never occurs in an encoded string, so the query separator is
unambiguous. -/
theorem encode_ne_qmark (x : Char) (s : JStr) (hx : x ∈ encodeURIComponent s) :
    x ≠ '?' := by
  rcases mem_encode x s hx with h | rfl | ⟨n, hn, rfl⟩
  · rintro rfl
    exact absurd h (by decide)
  · decide
  · have hhex : ∀ m, m < 16 → hexDigit m ≠ '?' := by decide
    exact hhex n hn

/-- The encoding of a nonempty string is nonempty. -/
theorem encode_ne_nil (s : JStr) (hs : s ≠ []) : encodeURIComponent s ≠ [] := by
  cases s with
  | nil => exact absurd rfl hs
  | cons c r =>
    rw [encodeURIComponent]
    by_cases hu : isUnreserved c
    · simp [if_pos hu]
    · rw [if_neg hu]
      have : utf8Bytes c ≠ [] := by
        unfold utf8Bytes
        simp only []
        split_ifs <;> simp
      cases hb : utf8Bytes c with
      | nil => exact absurd hb this
      | cons b bs => simp [hb, pctByte]

/-- Splitting a string free of the separator is the identity. -/
theorem splitOn_no_sep {sep : Char} {s : JStr} (h : ∀ x ∈ s, x ≠ sep) :
    s.splitOn sep = [s] :=
  List.splitOnP_eq_single _ _ (fun x hx => by simpa using h x hx)

/-- Splitting at the first separator occurrence. -/
theorem splitOn_append_sep {sep : Char} {s : JStr} (h : ∀ x ∈ s, x ≠ sep)
    (t : JStr) : (s ++ sep :: t).splitOn sep = s :: t.splitOn sep := by
  have := List.splitOnP_first (· == sep) s
    (fun x hx => by simpa using h x hx) sep (by simp) t
  simpa [List.splitOn] using this

/-- Percent decoding is the identity on strings without `%`. -/
theorem decode_no_pct (s : JStr) (h : ∀ x ∈ s, x ≠ '%') :
    decodeURIComponent s = some s := by
  have htok : pctTokens s = some (s.map .lit) := by
    induction s with
    | nil => rfl
    | cons c r ih =>
      rw [pctTokens_lit c (h c (List.mem_cons_self _ _)),
        ih (fun x hx => h x (List.mem_cons_of_mem _ hx))]
      rfl
  have hdec : ∀ (t : JStr), utf8DecodeToks (t.map .lit) = some t := by
    intro t
    induction t with
    | nil => rfl
    | cons c r ih =>
      have hlit : utf8DecodeToks (.lit c :: r.map .lit) =
          (utf8DecodeToks (r.map .lit)).map (c :: ·) := by
        rw [utf8DecodeToks.eq_def]
      rw [List.map_cons, hlit, ih]
      rfl
  unfold decodeURIComponent
  rw [htok]
  exact hdec s

/-- Form decoding is the identity on strings without `+` and `%`. -/
theorem formDecode_plain (s : JStr) (h : ∀ x ∈ s, x ≠ '+' ∧ x ≠ '%') :
    formDecode s = s := by
  have hplus : plusToSpace s = s := by
    unfold plusToSpace
    rw [List.map_congr_left (fun x hx => if_neg (h x hx).1)]
    exact List.map_id s
  unfold formDecode
  rw [hplus, decode_no_pct s (fun x hx => (h x hx).2)]
  rfl

/-- The accumulator of `natDigitsAux` is a suffix. -/
theorem natDigitsAux_append : ∀ (fuel n : Nat) (acc : JStr),
    natDigitsAux fuel n acc = natDigitsAux fuel n [] ++ acc := by
  intro fuel
  induction fuel with
  | zero => intro n acc; rfl
  | succ fuel ih =>
    intro n acc
    by_cases h : n < 10
    · simp [natDigitsAux, if_pos h]
    · simp only [natDigitsAux, if_neg h]
      rw [ih (n / 10) (Char.ofNat (n % 10 + 48) :: acc),
        ih (n / 10) [Char.ofNat (n % 10 + 48)], List.append_assoc]
      rfl

/-- Every character `natDigitsAux` prepends is a decimal digit. -/
theorem natDigitsAux_digits : ∀ (fuel n : Nat) (c : Char),
    c ∈ natDigitsAux fuel n [] → isDigit c := by
  intro fuel
  induction fuel with
  | zero => intro n c hc; cases hc
  | succ fuel ih =>
    intro n c hc
    by_cases h : n < 10
    · simp only [natDigitsAux, if_pos h, List.mem_singleton] at hc
      subst hc
      have : ∀ m, m < 10 → isDigit (Char.ofNat (m + 48)) := by decide
      exact this n h
    · simp only [natDigitsAux, if_neg h] at hc
      rw [natDigitsAux_append] at hc
      rcases List.mem_append.1 hc with hm | hm
      · exact ih (n / 10) c hm
      · rcases List.mem_singleton.1 hm with rfl
        have : ∀ m, m < 10 → isDigit (Char.ofNat (m + 48)) := by decide
        exact this (n % 10) (by omega)

/-- `natDigits` is never empty. -/
theorem natDigits_ne_nil (n : Nat) : natDigits n ≠ [] := by
  unfold natDigits
  show natDigitsAux (n + 1) n [] ≠ []
  by_cases h : n < 10
  · simp [natDigitsAux, if_pos h]
  · simp only [natDigitsAux, if_neg h]
    rw [natDigitsAux_append]
    simp

/-- Reading the digits of `n` back yields `n`. -/
theorem digitsToNat_natDigitsAux : ∀ (fuel n : Nat), n < 10 ^ fuel →
    digitsToNat (natDigitsAux fuel n []) = n := by
  intro fuel
  induction fuel with
  | zero =>
    intro n hn
    simp only [pow_zero, Nat.lt_one_iff] at hn
    subst hn
    rfl
  | succ fuel ih =>
    intro n hn
    by_cases h : n < 10
    · simp only [natDigitsAux, if_pos h]
      have : ∀ m, m < 10 →
          digitsToNat [Char.ofNat (m + 48)] = m := by decide
      exact this n h
    · simp only [natDigitsAux, if_neg h]
      rw [natDigitsAux_append]
      unfold digitsToNat
      rw [List.foldl_append]
      have hdiv : n / 10 < 10 ^ fuel := by
        rw [Nat.div_lt_iff_lt_mul (by omega)]
        calc n < 10 ^ (fuel + 1) := hn
        _ = 10 ^ fuel * 10 := by ring
      have hv := ih (n / 10) hdiv
      unfold digitsToNat at hv
      rw [hv]
      simp only [List.foldl_cons, List.foldl_nil]
      have hchar : ∀ m, m < 10 →
          (Char.ofNat (m + 48)).toNat - 48 = m := by decide
      rw [hchar (n % 10) (by omega)]
      omega

/-- Reading the decimal representation of `n` yields `n`. -/
theorem digitsToNat_natDigits (n : Nat) : digitsToNat (natDigits n) = n := by
  unfold natDigits
  apply digitsToNat_natDigitsAux
  calc n < 10 ^ n := Nat.lt_pow_self (by omega) n
  _ ≤ 10 ^ (n + 1) := Nat.pow_le_pow_right (by omega) (by omega)

/-- A decimal digit is not whitespace, a sign, a separator, or an
escape character. -/
theorem isDigit_ne (c : Char) (h : isDigit c) :
    isJsWs c = false ∧ c ≠ '-' ∧ c ≠ '+' ∧ c ≠ '%' ∧ c ≠ '?' ∧ c ≠ '&' ∧
      c ≠ '=' := by
  have hne : ∀ d : Char, ¬isDigit d = true → c ≠ d := by
    intro d hd he
    rw [he] at h
    exact hd h
  constructor
  · by_contra hw
    simp only [Bool.not_eq_false, isJsWs, decide_eq_true_eq] at hw
    rcases hw with rfl | rfl | rfl | rfl | rfl | rfl <;> exact absurd h (by decide)
  exact ⟨hne '-' (by decide), hne '+' (by decide), hne '%' (by decide),
    hne '?' (by decide), hne '&' (by decide), hne '=' (by decide)⟩

/-- `parseInt` on a pure digit string returns its value. -/
theorem jsParseInt_digits (s : JStr) (hne : s ≠ []) (hd : ∀ c ∈ s, isDigit c) :
    jsParseInt s = some (digitsToNat s : Int) := by
  cases s with
  | nil => exact absurd rfl hne
  | cons c r =>
    have hc := hd c (List.mem_cons_self _ _)
    have hc' := isDigit_ne c hc
    unfold jsParseInt
    rw [List.dropWhile_cons, if_neg (by simp [hc'.1])]
    simp only [if_neg hc'.2.1, if_neg hc'.2.2.1]
    unfold parseDigits
    have htake : List.takeWhile isDigit (c :: r) = c :: r := by
      rw [List.takeWhile_eq_self_iff.2 hd]
    simp only [htake, if_neg (List.cons_ne_nil c r)]
    rfl

/-- Parsing a query consisting of one `name=digits` pair. -/
theorem searchPairs_single (pname ds : JStr)
    (hpn : ∀ x ∈ pname, x ≠ '&' ∧ x ≠ '=' ∧ x ≠ '+' ∧ x ≠ '%')
    (hdig : ∀ c ∈ ds, isDigit c) :
    searchPairs (pname ++ '=' :: ds) = [(pname, ds)] := by
  have hamp : ∀ x ∈ pname ++ '=' :: ds, x ≠ '&' := by
    intro x hx
    rcases List.mem_append.1 hx with h | h
    · exact (hpn x h).1
    · rcases List.mem_cons.1 h with rfl | h
      · decide
      · exact (isDigit_ne x (hdig x h)).2.2.2.2.2.1
  unfold searchPairs
  rw [splitOn_no_sep hamp]
  rw [List.filterMap_cons]
  rw [if_neg (by simp)]
  rw [splitOn_append_sep (fun x hx => (hpn x hx).2.1) ds,
    splitOn_no_sep (fun x hx => (isDigit_ne x (hdig x hx)).2.2.2.2.2.2)]
  have hf1 : formDecode pname = pname :=
    formDecode_plain pname (fun x hx => ⟨(hpn x hx).2.2.1, (hpn x hx).2.2.2⟩)
  have hf2 : formDecode ds = ds :=
    formDecode_plain ds (fun x hx =>
      ⟨(isDigit_ne x (hdig x hx)).2.2.1, (isDigit_ne x (hdig x hx)).2.2.2.1⟩)
  simp only [intercalate_single, hf1, hf2, List.filterMap_nil]

/-- `parseHash` on an encoded path with an explicit query part. -/
theorem parseHash_with_query (path q : JStr) (hqmark : ∀ x ∈ q, x ≠ '?')
    (hne : q ≠ []) :
    parseHash (encodeURIComponent path ++ '?' :: q) =
      some (path,
        match (match searchParamsGet q ("scroll".data) with
               | some s =>
                 if s = [] then searchParamsGet q ("page".data) else some s
               | none => searchParamsGet q ("page".data)) with
        | none => ScrollVal.null
        | some s =>
          if s = [] then ScrollVal.null
          else
            match jsParseInt s with
            | some n => ScrollVal.val n
            | none => ScrollVal.nan) := by
  have hsplit : (encodeURIComponent path ++ '?' :: q).splitOn '?' =
      [encodeURIComponent path, q] := by
    rw [splitOn_append_sep (fun x hx => encode_ne_qmark x path hx) q,
      splitOn_no_sep hqmark]
  have hsel : selectedScrollParam (encodeURIComponent path ++ '?' :: q) =
      (match searchParamsGet q ("scroll".data) with
       | some s => if s = [] then searchParamsGet q ("page".data) else some s
       | none => searchParamsGet q ("page".data)) := by
    unfold selectedScrollParam
    rw [hsplit]
    simp only [List.getElem?_cons_succ, List.getElem?_cons_zero]
    rw [if_neg hne]
  unfold parseHash
  rw [if_neg (by simp), hsplit]
  simp only [List.headD_cons]
  rw [decodeURIComponent_encode, hsel]

/-- **C9.** Hash round trip: writing the location hash with
`updateHash` for any path and any scroll value (absent or a
non-negative integer) and reading it back with `parseHash` recovers the
original path (through the `encodeURIComponent`/`decodeURIComponent`
pair) and the original scroll value, whether the position was written
under the `page` (PDF) or the `scroll` parameter name. -/
theorem hash_roundtrip (isPdf : Bool) (path : JStr) (scroll : Option Nat) :
    parseHash (updateHash isPdf path scroll) =
      some (path, match scroll with
                  | none => ScrollVal.null
                  | some n => ScrollVal.val (n : Int)) := by
  cases scroll with
  | none =>
    show parseHash (encodeURIComponent path) = some (path, ScrollVal.null)
    by_cases hp : path = []
    · subst hp
      rfl
    · have hne := encode_ne_nil path hp
      have hsplit : (encodeURIComponent path).splitOn '?' =
          [encodeURIComponent path] :=
        splitOn_no_sep (fun x hx => encode_ne_qmark x path hx)
      have hsel : selectedScrollParam (encodeURIComponent path) = none := by
        unfold selectedScrollParam
        rw [hsplit]
        rfl
      unfold parseHash
      rw [if_neg hne, hsplit]
      simp only [List.headD_cons]
      rw [decodeURIComponent_encode, hsel]
  | some n =>
    have hdig : ∀ c ∈ natDigits n, isDigit c :=
      fun c hc => natDigitsAux_digits _ _ c hc
    have hdig_ne := natDigits_ne_nil n
    have hval : jsParseInt (natDigits n) = some (n : Int) := by
      rw [jsParseInt_digits (natDigits n) hdig_ne hdig, digitsToNat_natDigits]
    cases isPdf with
    | true =>
      show parseHash (encodeURIComponent path ++
          '?' :: ("page".data ++ '=' :: natDigits n)) = _
      have hqmark : ∀ x ∈ "page".data ++ '=' :: natDigits n, x ≠ '?' := by
        intro x hx
        rcases List.mem_append.1 hx with h | h
        · have hh : ∀ y ∈ ("page".data : JStr), y ≠ '?' := by decide
          exact hh x h
        · rcases List.mem_cons.1 h with rfl | h
          · decide
          · exact (isDigit_ne x (hdig x h)).2.2.2.2.1
      have hgs : searchParamsGet ("page".data ++ '=' :: natDigits n)
          ("scroll".data) = none := by
        unfold searchParamsGet
        rw [searchPairs_single "page".data (natDigits n) (by decide) hdig]
        rw [List.findSome?_cons,
          if_neg (by decide : ¬(("page".data : JStr) = "scroll".data))]
        simp
      have hgp : searchParamsGet ("page".data ++ '=' :: natDigits n)
          ("page".data) = some (natDigits n) := by
        unfold searchParamsGet
        rw [searchPairs_single "page".data (natDigits n) (by decide) hdig]
        rw [List.findSome?_cons, if_pos rfl]
      rw [parseHash_with_query path _ hqmark (by simp), hgs, hgp]
      simp only [if_neg hdig_ne, hval]
    | false =>
      show parseHash (encodeURIComponent path ++
          '?' :: ("scroll".data ++ '=' :: natDigits n)) = _
      have hqmark : ∀ x ∈ "scroll".data ++ '=' :: natDigits n, x ≠ '?' := by
        intro x hx
        rcases List.mem_append.1 hx with h | h
        · have hh : ∀ y ∈ ("scroll".data : JStr), y ≠ '?' := by decide
          exact hh x h
        · rcases List.mem_cons.1 h with rfl | h
          · decide
          · exact (isDigit_ne x (hdig x h)).2.2.2.2.1
      have hgs : searchParamsGet ("scroll".data ++ '=' :: natDigits n)
          ("scroll".data) = some (natDigits n) := by
        unfold searchParamsGet
        rw [searchPairs_single "scroll".data (natDigits n) (by decide) hdig]
        rw [List.findSome?_cons, if_pos rfl]
      rw [parseHash_with_query path _ hqmark (by simp), hgs]
      simp only [if_neg hdig_ne, hval]

/-- **C8, counterexample.** `parseHash` does not always return null or
an integer: for the hash `doc?scroll=x` the scroll parameter is the
non-numeric string `x`, `parseInt` yields `NaN`, and `parseHash`
reports that `NaN` as the scroll position. -/
theorem parseHash_nan_counterexample :
    parseHash ("doc?scroll=x".data) = some ("doc".data, ScrollVal.nan) := by
  decide

/-- **C8, amended.** `parseHash` returns a scroll position that is
null or an integer whenever the selected scroll/page parameter is
absent, empty, or has a parseable leading integer; only a present,
nonempty, non-numeric parameter produces `NaN` (JS `parseInt`). -/
theorem parseHash_scroll_null_or_int (hash p : JStr) (sv : ScrollVal)
    (h : parseHash hash = some (p, sv))
    (hok : ∀ s, selectedScrollParam hash = some s →
      s = [] ∨ (jsParseInt s).isSome) :
    sv = .null ∨ ∃ n, sv = .val n := by
  unfold parseHash at h
  by_cases he : hash = []
  · rw [if_pos he] at h
    simp only [Option.some.injEq, Prod.mk.injEq] at h
    exact Or.inl h.2.symm
  · rw [if_neg he] at h
    cases hd : decodeURIComponent ((hash.splitOn '?').headD []) with
    | none =>
      rw [hd] at h
      cases h
    | some path =>
      rw [hd] at h
      simp only [Option.some.injEq, Prod.mk.injEq] at h
      obtain ⟨-, hsv⟩ := h
      cases hs : selectedScrollParam hash with
      | none =>
        rw [hs] at hsv
        exact Or.inl hsv.symm
      | some s =>
        rw [hs] at hsv
        have hsv1 : (if s = [] then ScrollVal.null
            else match jsParseInt s with
              | some n => ScrollVal.val n
              | none => ScrollVal.nan) = sv := hsv
        rcases hok s hs with rfl | hparse
        · rw [if_pos rfl] at hsv1
          exact Or.inl hsv1.symm
        · have hne : s ≠ [] := by
            rintro rfl
            exact absurd hparse (by decide)
          rw [if_neg hne] at hsv1
          obtain ⟨m, hm⟩ := Option.isSome_iff_exists.1 hparse
          rw [hm] at hsv1
          have hsv2 : ScrollVal.val m = sv := hsv1
          exact Or.inr ⟨m, hsv2.symm⟩

/-- Witness for `parseHash_scroll_null_or_int` at the hash
`doc?scroll=5`, whose scroll parameter parses as an integer. -/
theorem parseHash_scroll_null_or_int_witness :
    ScrollVal.val 5 = ScrollVal.null ∨ ∃ n, ScrollVal.val 5 = ScrollVal.val n :=
  parseHash_scroll_null_or_int ("doc?scroll=5".data) ("doc".data) (.val 5)
    (by decide)
    (by
      intro s hsel
      have he : selectedScrollParam ("doc?scroll=5".data) = some ("5".data) := by
        decide
      rw [he] at hsel
      injection hsel with hs
      subst hs
      right
      decide)

/-! ## C10: the PDF viewer page state machine -/

/-- A JS number as the viewer handles it: an integral value or `NaN`
(the result of `parseInt` on a non-numeric page-input value). -/
inductive JsNum where
  | nan
  | int (n : Int)
deriving Repr, DecidableEq

/-- The JS `<` comparison against an integer constant: false whenever
the left operand is `NaN`. -/
def jsLtInt : JsNum → Int → Bool
  | .int a, b => decide (a < b)
  | .nan, _ => false

/-- The JS `>` comparison against an integer: false on `NaN`. -/
def jsGtInt : JsNum → Int → Bool
  | .int a, b => decide (b < a)
  | .nan, _ => false

/-- JS addition of an integer constant: `NaN` is absorbing. -/
def JsNum.addInt : JsNum → Int → JsNum
  | .nan, _ => .nan
  | .int n, m => .int (n + m)

/-- The `parseInt` result as the number handed to `goToPage` by the
page-input `onchange` handler: `NaN` when parsing failed. -/
def jsNumOfParseInt : Option Int → JsNum
  | some n => .int n
  | none => .nan

/-- The page-navigation state of the PDF viewer: whether a document is
loaded, the current page (a JS number, possibly `NaN`), and the total
page count reported by the PDF library (a genuine integer). -/
structure PdfState where
  loaded : Bool
  currentPage : JsNum
  totalPages : Int
deriving Repr, DecidableEq

/-- The page invariant: the current page is a genuine integer in
`[1, totalPages]`. -/
def PdfInv (st : PdfState) : Prop :=
  match st.currentPage with
  | .int n => 1 ≤ n ∧ n ≤ st.totalPages
  | .nan => False

instance (st : PdfState) : Decidable (PdfInv st) := by
  unfold PdfInv
  cases st.currentPage <;> infer_instance

/-- `loadPdf`: the loaded document reports `numPages`; the initial page
goes through the two clamping `if`s (raised to 1, then lowered to
`totalPages`) — both comparisons are false on `NaN`, which therefore
passes through unclamped, exactly as in the source. -/
def loadPdf (initialPage : JsNum) (numPages : Int) : PdfState :=
  let p1 := if jsLtInt initialPage 1 then .int 1 else initialPage
  let p2 := if jsGtInt p1 numPages then .int numPages else p1
  ⟨true, p2, numPages⟩

/-- `goToPage`: rejected (state unchanged) when no document is loaded
or `pageNum < 1 || pageNum > totalPages`; both comparisons are false on
`NaN`, so a `NaN` page number passes the guard, as in the source. -/
def goToPage (st : PdfState) (pageNum : JsNum) : PdfState :=
  if ¬st.loaded ∨ jsLtInt pageNum 1 ∨ jsGtInt pageNum st.totalPages then st
  else { st with currentPage := pageNum }

/-- `prevPage`: one page back via `goToPage`. -/
def prevPage (st : PdfState) : PdfState :=
  goToPage st (st.currentPage.addInt (-1))

/-- `nextPage`: one page forward via `goToPage`. -/
def nextPage (st : PdfState) : PdfState :=
  goToPage st (st.currentPage.addInt 1)

/-- **C10, counterexample.** The claimed invariant fails on the code:
from the validly loaded one-page state, `goToPage` applied to the
result of `parseInt` on an empty page-input value — `NaN`, which is not
a page in `[1, totalPages]` — bypasses the range guard (both
comparisons are false on `NaN`), changes the state, and leaves
`currentPage = NaN`, so `currentPage` neither stays in range nor stays
unchanged. -/
theorem goToPage_nan_counterexample :
    PdfInv (loadPdf (.int 1) 3) ∧
    goToPage (loadPdf (.int 1) 3) (jsNumOfParseInt (jsParseInt ("".data))) ≠
      loadPdf (.int 1) 3 ∧
    ¬PdfInv (goToPage (loadPdf (.int 1) 3)
      (jsNumOfParseInt (jsParseInt ("".data)))) := by
  decide

/-- **C10, amended.** Once a document with `totalPages ≥ 1` is loaded
with a non-`NaN` initial page, `loadPdf` clamps it into
`[1, totalPages]`; from any state satisfying the invariant, `goToPage`
with a non-`NaN` page number, `prevPage` and `nextPage` (whose
arguments `currentPage ± 1` are then never `NaN`) preserve
`1 ≤ currentPage ≤ totalPages`; and `goToPage` with an out-of-range
non-`NaN` page number leaves the state (in particular `currentPage`)
unchanged.  A `NaN` page number — reachable by clearing the page input,
since `parseInt('')` is `NaN` — is the sole exception, per the
counterexample. -/
theorem pdf_page_invariant_non_nan (i numPages : Int) (st : PdfState)
    (m : Int) :
    (1 ≤ numPages → PdfInv (loadPdf (.int i) numPages)) ∧
    (PdfInv st →
      PdfInv (goToPage st (.int m)) ∧ PdfInv (prevPage st) ∧
        PdfInv (nextPage st)) ∧
    ((m < 1 ∨ m > st.totalPages) → goToPage st (.int m) = st) := by
  obtain ⟨ld, cp, tp⟩ := st
  refine ⟨?_, ?_, ?_⟩
  · intro h
    unfold loadPdf
    by_cases h1 : i < 1
    · have e1 : jsLtInt (.int i) 1 = true := by simp [jsLtInt, h1]
      have e2 : jsGtInt (.int 1) numPages = false := by
        simp only [jsGtInt, decide_eq_false_iff_not]
        omega
      simp only [e1, e2, if_true, if_false, Bool.false_eq_true]
      unfold PdfInv
      exact ⟨le_refl 1, h⟩
    · have e1 : jsLtInt (.int i) 1 = false := by
        simp only [jsLtInt, decide_eq_false_iff_not]
        omega
      simp only [e1, Bool.false_eq_true, if_false]
      by_cases h2 : numPages < i
      · have e2 : jsGtInt (.int i) numPages = true := by simp [jsGtInt, h2]
        simp only [e2, if_true]
        unfold PdfInv
        exact ⟨h, le_refl numPages⟩
      · have e2 : jsGtInt (.int i) numPages = false := by
          simp only [jsGtInt, decide_eq_false_iff_not]
          omega
        simp only [e2, Bool.false_eq_true, if_false]
        show 1 ≤ i ∧ i ≤ numPages
        exact ⟨by omega, by omega⟩
  · intro h
    cases cp with
    | nan => exact h.elim
    | int n =>
      have hb : 1 ≤ n ∧ n ≤ tp := h
      have key : ∀ mm : Int, PdfInv (goToPage ⟨ld, .int n, tp⟩ (.int mm)) := by
        intro mm
        unfold goToPage
        split_ifs with hg
        · exact h
        · push_neg at hg
          obtain ⟨hld, hlt, hgt⟩ := hg
          simp only [ne_eq, jsLtInt, jsGtInt, decide_eq_true_eq] at hlt hgt
          show 1 ≤ mm ∧ mm ≤ tp
          exact ⟨by omega, by omega⟩
      exact ⟨key m, key (n + -1), key (n + 1)⟩
  · intro h
    unfold goToPage
    rw [if_pos]
    rcases h with h | h
    · exact Or.inr (Or.inl (by simp [jsLtInt, h]))
    · have hlt : tp < m := h
      exact Or.inr (Or.inr (by simp [jsGtInt, hlt]))

/-- Witness for `pdf_page_invariant_non_nan`: loading with initial
page 5 into a 3-page document clamps to page 3, integer navigation
keeps the invariant, and `goToPage 7` is a no-op. -/
theorem pdf_page_invariant_non_nan_witness :
    PdfInv (loadPdf (.int 5) 3) ∧
    (PdfInv (goToPage (loadPdf (.int 5) 3) (.int 2)) ∧
      PdfInv (prevPage (loadPdf (.int 5) 3)) ∧
      PdfInv (nextPage (loadPdf (.int 5) 3))) ∧
    goToPage (loadPdf (.int 5) 3) (.int 7) = loadPdf (.int 5) 3 := by
  have h1 := (pdf_page_invariant_non_nan 5 3 (loadPdf (.int 5) 3) 2).1
    (by decide)
  have h2 := (pdf_page_invariant_non_nan 5 3 (loadPdf (.int 5) 3) 2).2.1 h1
  have h3 := (pdf_page_invariant_non_nan 5 3 (loadPdf (.int 5) 3) 7).2.2
    (by decide)
  exact ⟨h1, h2, h3⟩

end Ctd
